import Mathlib

/-!
Verification of the signal-synthesis and spectral-analysis core of an FFT
visualisation application.  The numeric engine is shallowly embedded over the
real numbers: JavaScript `number` arithmetic is modelled by `ℝ`, a JavaScript
object `{r, i}` by the structure `Cplx`, and operations that can throw a
runtime `TypeError` by reading an out-of-bounds array element (which yields
`undefined`, whose property access throws) return `Option`, with `none`
standing for the thrown exception.
-/

set_option maxRecDepth 4000

open Real

/-- The `Complex` interface of the source: `interface Complex { r: number; i: number }`. -/
@[ext]
structure Cplx where
  r : ℝ
  i : ℝ

/-- The zero sample `{ r: 0, i: 0 }`. -/
def cZero : Cplx := ⟨0, 0⟩

/-- Componentwise addition, as written inline in `fft`:
`{ r: even[k].r + temp.r, i: even[k].i + temp.i }`. -/
def cadd (x y : Cplx) : Cplx := ⟨x.r + y.r, x.i + y.i⟩

/-- Componentwise subtraction, as written inline in `fft`:
`{ r: even[k].r - temp.r, i: even[k].i - temp.i }`. -/
def csub (x y : Cplx) : Cplx := ⟨x.r - y.r, x.i - y.i⟩

/-- Complex multiplication, as written inline in `fft`:
`{ r: exp.r*odd[k].r - exp.i*odd[k].i, i: exp.i*odd[k].r + exp.r*odd[k].i }`. -/
def cmul (x y : Cplx) : Cplx := ⟨x.r * y.r - x.i * y.i, x.i * y.r + x.r * y.i⟩

/-- Componentwise negation (used only in statements about twiddle factors). -/
def cneg (x : Cplx) : Cplx := ⟨-x.r, -x.i⟩

/-- Complex conjugate (used only in statements; the source never conjugates). -/
def Cplx.conj (x : Cplx) : Cplx := ⟨x.r, -x.i⟩

theorem conj_cadd (x y : Cplx) : (cadd x y).conj = cadd x.conj y.conj := by
  ext <;> simp [cadd, Cplx.conj] <;> ring

theorem conj_csub (x y : Cplx) : (csub x y).conj = csub x.conj y.conj := by
  ext <;> simp [csub, Cplx.conj] <;> ring

theorem conj_cmul (x y : Cplx) : (cmul x y).conj = cmul x.conj y.conj := by
  ext <;> simp [cmul, Cplx.conj] <;> ring

theorem cmul_one_left (y : Cplx) : cmul ⟨1, 0⟩ y = y := by
  ext <;> simp [cmul]

theorem csub_cmul_cneg (x w y : Cplx) : csub x (cmul (cneg w) y) = cadd x (cmul w y) := by
  ext <;> simp [csub, cadd, cmul, cneg] <;> ring

theorem cadd_cmul_cneg (x w y : Cplx) : cadd x (cmul (cneg w) y) = csub x (cmul w y) := by
  ext <;> simp [csub, cadd, cmul, cneg] <;> ring

theorem conj_eq_self (x : Cplx) (h : x.i = 0) : x.conj = x := by
  ext <;> simp [Cplx.conj, h]

/-- `generateSineWave(numPoints, freq, amp, decay, phase)` from the source:
for each `index` in `[0, numPoints)`,
`angle = (index / numPoints) * freq * Math.PI * 2 + (phase * Math.PI) / 180` and
`amplitude = Math.sin(angle) * amp * Math.exp(-decay * index)`, yielding the
sample `{ r: amplitude, i: 0 }`. -/
noncomputable def generateSineWave (numPoints : ℕ) (freq amp decay phase : ℝ) : List Cplx :=
  (List.range numPoints).map fun index : ℕ =>
    ⟨Real.sin (((index : ℝ) / (numPoints : ℝ)) * freq * Real.pi * 2 + phase * Real.pi / 180)
        * amp * Real.exp (-decay * (index : ℝ)), 0⟩

/-- The wave-combination step of `generateCompositeWave` applied to an arbitrary
list of waves; it embeds
`waves[0].map((_, index) => waves.reduce((acc, wave) => { acc.r += wave[index].r; return acc; }, { r: 0, i: 0 }))`.
Only the real component is accumulated by the reduce; `acc.i` is never updated.
An empty `waves` makes `waves[0]` `undefined` (calling `.map` throws), and a
wave shorter than `waves[0]` makes `wave[index]` `undefined` at some index
(reading `.r` throws); both exceptions are modelled by `none`. -/
def composeWaves : List (List Cplx) → Option (List Cplx)
  | [] => none
  | w0 :: rest =>
    if (w0 :: rest).all fun w => w0.length ≤ w.length then
      some ((List.range w0.length).map fun index =>
        (w0 :: rest).foldl (fun acc wave => ⟨acc.r + (wave.getD index cZero).r, acc.i⟩) cZero)
    else none

/-- `generateCompositeWave(numPoints, freqs, amps, decays, phases)` from the source:
generate one sine wave per entry of `freqs` and combine them with
`composeWaves`.  The source indexes `amps[i]`, `decays[i]` and `phases[i]`
in lockstep with `freqs`; the embedding is faithful whenever the four
parameter lists share a length, the only way the source calls it. -/
noncomputable def generateCompositeWave (numPoints : ℕ)
    (freqs amps decays phases : List ℝ) : Option (List Cplx) :=
  composeWaves ((List.range freqs.length).map fun j =>
    generateSineWave numPoints (freqs.getD j 0) (amps.getD j 0) (decays.getD j 0) (phases.getD j 0))

/-- The fixed three-wave composition of the current application:
`sineWave1.map((point, index) => ({ r: point.r + sineWave2[index].r + sineWave3[index].r, i: point.i + sineWave2[index].i + sineWave3[index].i }))`.
Reading past the end of `sineWave2` or `sineWave3` throws (modelled `none`). -/
def compositeWave3 (w1 w2 w3 : List Cplx) : Option (List Cplx) :=
  if w1.length ≤ w2.length ∧ w1.length ≤ w3.length then
    some ((List.range w1.length).map fun index =>
      ⟨(w1.getD index cZero).r + (w2.getD index cZero).r + (w3.getD index cZero).r,
       (w1.getD index cZero).i + (w2.getD index cZero).i + (w3.getD index cZero).i⟩)
  else none

/-- `calculateDFTForFrequency(data, targetFrequency, numPoints, samplingRate)` from the
source: with `freqRad = 2π * targetFrequency / samplingRate`, each output sample is
the input sample rotated by `angle = freqRad * n`.  The loop reads `data[n]` for every
`n < numPoints`; a signal shorter than `numPoints` makes `data[n]` `undefined`
(reading `.r` throws), modelled by `none`. -/
noncomputable def calculateDFTForFrequency (data : List Cplx) (targetFrequency : ℝ)
    (numPoints : ℕ) (samplingRate : ℝ) : Option (List Cplx) :=
  if numPoints ≤ data.length then
    some ((List.range numPoints).map fun n =>
      ⟨(data.getD n cZero).r * Real.cos (2 * Real.pi * targetFrequency / samplingRate * n)
          - (data.getD n cZero).i * Real.sin (2 * Real.pi * targetFrequency / samplingRate * n),
       (data.getD n cZero).i * Real.cos (2 * Real.pi * targetFrequency / samplingRate * n)
          + (data.getD n cZero).r * Real.sin (2 * Real.pi * targetFrequency / samplingRate * n)⟩)
  else none

/-- The centroid computation of the current application:
`total = dftResults.reduce((acc, point) => ({ r: acc.r + point.r, i: acc.i + point.i }), { r: 0, i: 0 })`
followed by `{ r: (total.r / dftResults.length) * 2, i: (total.i / dftResults.length) * 2 }`. -/
noncomputable def centroidOf (dftResults : List Cplx) : Cplx :=
  ⟨((dftResults.foldl (fun acc point => ⟨acc.r + point.r, acc.i + point.i⟩) cZero).r
      / dftResults.length) * 2,
   ((dftResults.foldl (fun acc point => ⟨acc.r + point.r, acc.i + point.i⟩) cZero).i
      / dftResults.length) * 2⟩

theorem foldl_cadd_components (l : List Cplx) (acc : Cplx) :
    l.foldl (fun acc point => (⟨acc.r + point.r, acc.i + point.i⟩ : Cplx)) acc
      = ⟨acc.r + (l.map Cplx.r).sum, acc.i + (l.map Cplx.i).sum⟩ := by
  induction l generalizing acc with
  | nil => simp
  | cons x t ih => simp [List.foldl_cons, ih]; constructor <;> ring

theorem foldl_real_sum (idx : ℕ) (ws : List (List Cplx)) (acc : Cplx) :
    ws.foldl (fun acc wave => (⟨acc.r + (wave.getD idx cZero).r, acc.i⟩ : Cplx)) acc
      = ⟨acc.r + (ws.map fun w => (w.getD idx cZero).r).sum, acc.i⟩ := by
  induction ws generalizing acc with
  | nil => simp
  | cons w t ih =>
    simp only [List.foldl_cons, List.map_cons, List.sum_cons, ih]
    ext
    · simp; ring
    · simp

theorem map_getD_range (l : List Cplx) : (List.range l.length).map (fun n => l.getD n cZero) = l := by
  induction l with
  | nil => simp
  | cons x t ih =>
    simp only [List.length_cons, List.range_succ_eq_map, List.map_cons, List.getD_cons_zero,
      List.map_map]
    refine congrArg (x :: ·) ?_
    have : ((fun n => (x :: t).getD n cZero) ∘ Nat.succ) = fun n => t.getD n cZero := by
      funext n; simp [List.getD_cons_succ]
    rw [this, ih]

/-- The even-index subsequence, embedding `data.filter((_, i) => i % 2 === 0)`. -/
def evenIdx : List Cplx → List Cplx
  | [] => []
  | [a] => [a]
  | a :: _ :: t => a :: evenIdx t

/-- The odd-index subsequence, embedding `data.filter((_, i) => i % 2 !== 0)`. -/
def oddIdx : List Cplx → List Cplx
  | [] => []
  | [_] => []
  | _ :: b :: t => b :: oddIdx t

theorem length_evenIdx : ∀ l : List Cplx, (evenIdx l).length = (l.length + 1) / 2
  | [] => rfl
  | [_] => by simp [evenIdx]
  | _ :: _ :: t => by
    simp only [evenIdx, List.length_cons, length_evenIdx t]
    omega

theorem length_oddIdx : ∀ l : List Cplx, (oddIdx l).length = l.length / 2
  | [] => rfl
  | [_] => by simp [oddIdx]
  | _ :: _ :: t => by
    simp only [oddIdx, List.length_cons, length_oddIdx t]
    omega

theorem mem_of_mem_evenIdx : ∀ (l : List Cplx) (x : Cplx), x ∈ evenIdx l → x ∈ l
  | [], _, h => by simp [evenIdx] at h
  | [a], x, h => h
  | a :: b :: t, x, h => by
    simp only [evenIdx, List.mem_cons] at h ⊢
    rcases h with h | h
    · exact Or.inl h
    · exact Or.inr (Or.inr (mem_of_mem_evenIdx t x h))

theorem mem_of_mem_oddIdx : ∀ (l : List Cplx) (x : Cplx), x ∈ oddIdx l → x ∈ l
  | [], _, h => by simp [oddIdx] at h
  | [_], _, h => by simp [oddIdx] at h
  | a :: b :: t, x, h => by
    simp only [oddIdx, List.mem_cons] at h ⊢
    rcases h with h | h
    · exact Or.inr (Or.inl h)
    · exact Or.inr (Or.inr (mem_of_mem_oddIdx t x h))

/-- The twiddle factor computed at loop index `k`:
`{ r: Math.cos((a * k) / N), i: Math.sin((a * k) / N) }` with `a = -2 * Math.PI`. -/
noncomputable def twiddle (N k : ℕ) : Cplx :=
  ⟨Real.cos (-2 * Real.pi * k / N), Real.sin (-2 * Real.pi * k / N)⟩

/-- The recursive radix-2 `fft` of the source.  `N <= 1` returns the input
unchanged; otherwise the halves are transformed recursively and combined with
`results[k] = even[k] + temp` and `results[k + half] = even[k] - temp`, where
`temp = twiddle * odd[k]` and `half = Math.floor(N / 2)`.  The loop reads
`even[k]` and `odd[k]` for every `k < half`; when a recursive result is shorter
than `half` (which happens for non-power-of-two lengths), the read yields
`undefined` and the property access throws, modelled by `none`.  For odd `N`
the slot `results[N - 1]` is never written; the embedding returns the
`2 * half` written entries. -/
noncomputable def fft (data : List Cplx) : Option (List Cplx) :=
  if _h : data.length ≤ 1 then some data
  else
    (fft (evenIdx data)).bind fun ev =>
      (fft (oddIdx data)).bind fun od =>
        if data.length / 2 ≤ ev.length ∧ data.length / 2 ≤ od.length then
          some (((List.range (data.length / 2)).map fun k =>
                  cadd (ev.getD k cZero) (cmul (twiddle data.length k) (od.getD k cZero)))
                ++ ((List.range (data.length / 2)).map fun k =>
                  csub (ev.getD k cZero) (cmul (twiddle data.length k) (od.getD k cZero))))
        else none
termination_by data.length
decreasing_by
  · rw [length_evenIdx]; omega
  · rw [length_oddIdx]; omega

/-- Length-level shadow of `fft`: it tracks only the lengths of intermediate
arrays, so whether `fft` fails with an out-of-bounds access, and the length of
its result, can be computed for a concrete input length.  The first argument is
recursion fuel; any fuel at least the length gives the behaviour of `fft`. -/
def fftLen : ℕ → ℕ → Option ℕ
  | 0, n => if n ≤ 1 then some n else none
  | fuel + 1, n =>
    if n ≤ 1 then some n
    else
      (fftLen fuel ((n + 1) / 2)).bind fun el =>
        (fftLen fuel (n / 2)).bind fun ol =>
          if n / 2 ≤ el ∧ n / 2 ≤ ol then some (n / 2 + n / 2) else none

theorem fft_map_length :
    ∀ (fuel : ℕ) (l : List Cplx), l.length ≤ fuel →
      (fft l).map List.length = fftLen fuel l.length := by
  intro fuel
  induction fuel with
  | zero =>
    intro l hl
    have h0 : l.length = 0 := Nat.le_zero.mp hl
    rw [fft, fftLen]
    simp [h0]
  | succ fuel ih =>
    intro l hl
    by_cases h1 : l.length ≤ 1
    · rw [fft, fftLen]
      simp [h1]
    · have hev : (evenIdx l).length ≤ fuel := by rw [length_evenIdx]; omega
      have hod : (oddIdx l).length ≤ fuel := by rw [length_oddIdx]; omega
      have ihe := ih (evenIdx l) hev
      have iho := ih (oddIdx l) hod
      rw [length_evenIdx] at ihe
      rw [length_oddIdx] at iho
      rw [fft, dif_neg h1]
      simp only [fftLen]
      rw [if_neg h1]
      cases hfe : fft (evenIdx l) with
      | none =>
        rw [hfe] at ihe
        simp only [Option.map_none'] at ihe
        rw [← ihe]
        simp
      | some ev =>
        rw [hfe] at ihe
        simp only [Option.map_some'] at ihe
        rw [← ihe]
        cases hfo : fft (oddIdx l) with
        | none =>
          rw [hfo] at iho
          simp only [Option.map_none'] at iho
          rw [← iho]
          simp
        | some od =>
          rw [hfo] at iho
          simp only [Option.map_some'] at iho
          rw [← iho]
          simp only [Option.some_bind]
          by_cases hg : l.length / 2 ≤ ev.length ∧ l.length / 2 ≤ od.length
          · simp [hg]
          · simp [hg]

theorem fftLen_pow2 : ∀ (m fuel : ℕ), 2 ^ m ≤ fuel → fftLen fuel (2 ^ m) = some (2 ^ m) := by
  intro m
  induction m with
  | zero =>
    intro fuel _
    cases fuel with
    | zero => simp [fftLen]
    | succ f => simp [fftLen]
  | succ m ih =>
    intro fuel hfuel
    have h2 : 2 ^ (m + 1) = 2 ^ m + 2 ^ m := by rw [pow_succ]; ring
    have hpos : 1 ≤ 2 ^ m := Nat.one_le_two_pow
    cases fuel with
    | zero => omega
    | succ f =>
      have hm : 2 ^ m ≤ f := by omega
      simp only [fftLen]
      rw [if_neg (by omega : ¬ 2 ^ (m + 1) ≤ 1)]
      have he : (2 ^ (m + 1) + 1) / 2 = 2 ^ m := by omega
      have ho : 2 ^ (m + 1) / 2 = 2 ^ m := by omega
      rw [he, ho, ih f hm]
      simp only [Option.some_bind]
      rw [if_pos ⟨le_refl _, le_refl _⟩]
      rw [h2]

theorem fft_pow2_succeeds (l : List Cplx) (m : ℕ) (hl : l.length = 2 ^ m) :
    ∃ res, fft l = some res ∧ res.length = l.length := by
  have hb := fft_map_length l.length l (le_refl _)
  rw [hl, fftLen_pow2 m (2 ^ m) (le_refl _)] at hb
  cases hres : fft l with
  | none => rw [hres] at hb; simp at hb
  | some res =>
    rw [hres] at hb
    simp only [Option.map_some', Option.some_inj] at hb
    exact ⟨res, rfl, by rw [hl, hb]⟩

theorem twiddle_zero (N : ℕ) : twiddle N 0 = ⟨1, 0⟩ := by
  simp [twiddle]

theorem fft_short (l : List Cplx) (h : l.length ≤ 1) : fft l = some l := by
  rw [fft, dif_pos h]

theorem fft_two (a b : Cplx) : fft [a, b] = some [cadd a b, csub a b] := by
  rw [fft, dif_neg (by norm_num)]
  have he : evenIdx [a, b] = [a] := rfl
  have ho : oddIdx [a, b] = [b] := rfl
  rw [he, ho, fft_short [a] (by norm_num), fft_short [b] (by norm_num)]
  simp only [Option.some_bind, List.length_cons, List.length_nil]
  simp [List.range_succ, twiddle_zero, cmul_one_left]

theorem fft_three (a b c : Cplx) :
    fft [a, b, c] = some [cadd (cadd a c) b, csub (cadd a c) b] := by
  rw [fft, dif_neg (by norm_num)]
  have he : evenIdx [a, b, c] = [a, c] := rfl
  have ho : oddIdx [a, b, c] = [b] := rfl
  rw [he, ho, fft_two a c, fft_short [b] (by norm_num)]
  simp only [Option.some_bind, List.length_cons, List.length_nil]
  simp [List.range_succ, twiddle_zero, cmul_one_left]

/-- C4: for every power-of-two `N` and every input signal of length `N`, `fft`
succeeds and returns exactly `N` coefficients. -/
theorem fft_pow2_length (l : List Cplx) (m : ℕ) (hl : l.length = 2 ^ m) :
    ∃ res, fft l = some res ∧ res.length = l.length :=
  fft_pow2_succeeds l m hl

/-- Witness for C4 at the concrete length-2 signal `[1, 2]`. -/
theorem fft_pow2_length_witness :
    (([⟨1, 0⟩, ⟨2, 0⟩] : List Cplx).length = 2 ^ 1) ∧
      ∃ res, fft [⟨1, 0⟩, ⟨2, 0⟩] = some res ∧
        res.length = ([⟨1, 0⟩, ⟨2, 0⟩] : List Cplx).length :=
  ⟨by norm_num, fft_pow2_length [⟨1, 0⟩, ⟨2, 0⟩] 1 (by norm_num)⟩

/-- C1 counterexample: at the non-power-of-two length 3 the `fft` of the source
raises no error at all; it silently returns a degraded two-element result, so
the claim that every non-power-of-two input raises `InvalidLength` is false. -/
theorem fft_length_three_silent :
    fft [⟨0, 0⟩, ⟨0, 0⟩, ⟨0, 0⟩] = some [⟨0, 0⟩, ⟨0, 0⟩] ∧
      ¬ ∃ m : ℕ, ([(⟨0, 0⟩ : Cplx), ⟨0, 0⟩, ⟨0, 0⟩]).length = 2 ^ m := by
  constructor
  · rw [fft_three]
    norm_num [cadd, csub, cmul_one_left]
  · rintro ⟨m, hm⟩
    simp only [List.length_cons, List.length_nil] at hm
    match m, hm with
    | 0, h => simp at h
    | 1, h => simp at h
    | m + 2, h =>
      have : 4 ≤ 2 ^ (m + 2) := by
        calc 4 = 4 * 1 := by norm_num
        _ ≤ 4 * 2 ^ m := by have := Nat.one_le_two_pow (n := m); omega
        _ = 2 ^ (m + 2) := by ring
      omega

/-- C1 amended: `fft` performs no length validation and has no typed
`InvalidLength` error; called on a signal of length 100 it fails with an
untyped out-of-bounds access (a thrown `TypeError`, modelled by `none`). -/
theorem fft_hundred_oob (l : List Cplx) (h : l.length = 100) : fft l = none := by
  have hb := fft_map_length 100 l (by omega)
  rw [h] at hb
  have hc : fftLen 100 100 = none := by decide
  rw [hc] at hb
  exact Option.map_eq_none'.mp hb

/-- Witness for the amended C1 at a concrete length-100 signal. -/
theorem fft_hundred_oob_witness :
    (List.replicate 100 cZero).length = 100 ∧ fft (List.replicate 100 cZero) = none :=
  ⟨by simp, fft_hundred_oob (List.replicate 100 cZero) (by simp)⟩

/-- C5: the wave generator's sample at each index `n < numPoints` is
`(sin((n/numPoints)*frequency*2π + phaseDegrees*π/180) * amplitude * exp(-decay*n), 0)`;
in particular with decay 0, amplitude 1 and phase 0 it reproduces
`sin(2π*f*n/numPoints)` at every index. -/
theorem generateSineWave_formula :
    (∀ (numPoints : ℕ) (freq amp decay phase : ℝ) (n : ℕ), n < numPoints →
      (generateSineWave numPoints freq amp decay phase)[n]? =
        some ⟨Real.sin ((n / numPoints) * freq * (2 * Real.pi) + phase * (Real.pi / 180))
                * amp * Real.exp (-decay * n), 0⟩) ∧
    (∀ (numPoints : ℕ) (freq : ℝ) (n : ℕ), n < numPoints →
      (generateSineWave numPoints freq 1 0 0)[n]? =
        some ⟨Real.sin (2 * Real.pi * freq * n / numPoints), 0⟩) := by
  constructor
  · intro N f a d p n hn
    simp only [generateSineWave, List.getElem?_map, List.getElem?_range hn, Option.map_some']
    have harg : ((n : ℝ) / N) * f * Real.pi * 2 + p * Real.pi / 180
        = ((n : ℝ) / N) * f * (2 * Real.pi) + p * (Real.pi / 180) := by ring
    rw [harg]
  · intro N f n hn
    simp only [generateSineWave, List.getElem?_map, List.getElem?_range hn, Option.map_some']
    have harg : ((n : ℝ) / N) * f * Real.pi * 2 + 0 * Real.pi / 180
        = 2 * Real.pi * f * n / N := by ring
    rw [harg]
    norm_num

/-- Witness for C5 at `numPoints = 2`, `n = 1`, `freq = 3`. -/
theorem generateSineWave_formula_witness :
    (1 : ℕ) < 2 ∧
      (generateSineWave 2 3 1 0 0)[1]? = some ⟨Real.sin (2 * Real.pi * 3 * 1 / 2), 0⟩ := by
  refine ⟨by norm_num, ?_⟩
  have h := generateSineWave_formula.2 2 3 1 (by norm_num)
  push_cast at h
  exact h

/-- C8: projecting at `targetFrequency = 0` returns the input signal unchanged
sample-for-sample, since the rotation angle is 0 at every sample index. -/
theorem projectAtFrequency_zero_identity (data : List Cplx) (numPoints : ℕ)
    (samplingRate : ℝ) (hlen : data.length = numPoints) (hs : 0 < samplingRate) :
    calculateDFTForFrequency data 0 numPoints samplingRate = some data := by
  subst hlen
  rw [calculateDFTForFrequency, if_pos (le_refl _)]
  have hfun : ∀ n : ℕ,
      (⟨(data.getD n cZero).r * Real.cos (2 * Real.pi * 0 / samplingRate * n)
          - (data.getD n cZero).i * Real.sin (2 * Real.pi * 0 / samplingRate * n),
        (data.getD n cZero).i * Real.cos (2 * Real.pi * 0 / samplingRate * n)
          + (data.getD n cZero).r * Real.sin (2 * Real.pi * 0 / samplingRate * n)⟩ : Cplx)
        = data.getD n cZero := by
    intro n
    have hz : 2 * Real.pi * 0 / samplingRate * (n : ℝ) = 0 := by simp
    rw [hz, Real.cos_zero, Real.sin_zero]
    ext
    · simp
    · simp
  simp only [hfun]
  rw [map_getD_range]

/-- Witness for C8 at the one-sample signal `[(1, 2)]` with samplingRate 1. -/
theorem projectAtFrequency_zero_identity_witness :
    ([⟨1, 2⟩] : List Cplx).length = 1 ∧ (0 : ℝ) < 1 ∧
      calculateDFTForFrequency [⟨1, 2⟩] 0 1 1 = some [⟨1, 2⟩] :=
  ⟨rfl, by norm_num, projectAtFrequency_zero_identity [⟨1, 2⟩] 1 1 rfl (by norm_num)⟩

/-- C9: for a non-empty trajectory of length `M` the centroid is the mean of the
real and imaginary components, each scaled by the fixed convention constant 2. -/
theorem centroid_mean_scale_two (traj : List Cplx) (h : traj ≠ []) :
    centroidOf traj =
      ⟨(traj.map Cplx.r).sum / traj.length * 2,
       (traj.map Cplx.i).sum / traj.length * 2⟩ := by
  simp only [centroidOf, foldl_cadd_components, cZero]
  norm_num

/-- Witness for C9 at the one-point trajectory `[(1, 2)]`. -/
theorem centroid_mean_scale_two_witness :
    ([⟨1, 2⟩] : List Cplx) ≠ [] ∧
      centroidOf [⟨1, 2⟩] =
        ⟨(([⟨1, 2⟩] : List Cplx).map Cplx.r).sum / ([⟨1, 2⟩] : List Cplx).length * 2,
         (([⟨1, 2⟩] : List Cplx).map Cplx.i).sum / ([⟨1, 2⟩] : List Cplx).length * 2⟩ :=
  ⟨by simp, centroid_mean_scale_two [⟨1, 2⟩] (by simp)⟩

/-- C10: the frequency projector reads `data[n]` for every `n < numPoints`;
when the signal is at least `numPoints` long every access is in bounds and the
trajectory has length exactly `numPoints`, while a shorter signal causes an
out-of-bounds access (modelled by `none`). -/
theorem calculateDFT_bounds (data : List Cplx) (targetFrequency : ℝ) (numPoints : ℕ)
    (samplingRate : ℝ) :
    (numPoints ≤ data.length →
        ∃ res, calculateDFTForFrequency data targetFrequency numPoints samplingRate = some res ∧
          res.length = numPoints) ∧
    (data.length < numPoints →
        calculateDFTForFrequency data targetFrequency numPoints samplingRate = none) := by
  constructor
  · intro h
    rw [calculateDFTForFrequency, if_pos h]
    exact ⟨_, rfl, by simp⟩
  · intro h
    rw [calculateDFTForFrequency, if_neg (by omega)]

/-- Witness for C10: an in-bounds projection of a length-1 signal and an
out-of-bounds projection of the empty signal. -/
theorem calculateDFT_bounds_witness :
    (∃ res, calculateDFTForFrequency [cZero] 5 1 1000 = some res ∧ res.length = 1) ∧
      calculateDFTForFrequency [] 5 1 1000 = none :=
  ⟨(calculateDFT_bounds [cZero] 5 1 1000).1 (by simp),
   (calculateDFT_bounds [] 5 1 1000).2 (by simp)⟩

/-- C6 counterexample: `generateCompositeWave` never sums imaginary parts.  For
the single input signal `[(0, 1)]` the composed output sample is `(0, 0)`,
while the sum of the inputs' imaginary parts at index 0 is `1`. -/
theorem composeWaves_imag_not_summed :
    composeWaves [[⟨0, 1⟩]] = some [⟨0, 0⟩] ∧
      (([(⟨0, 1⟩ : Cplx)]).map Cplx.i).sum = 1 ∧ (0 : ℝ) ≠ 1 := by
  refine ⟨?_, by simp, by norm_num⟩
  simp [composeWaves, List.range_succ, cZero]

/-- C6 amended: for a non-empty list of equal-length signals the combination
step of `generateCompositeWave` succeeds and produces, at every index, the sum
of the real parts with imaginary part 0 — the imaginary parts are never
accumulated (this coincides with summing them only when every input imaginary
part is 0, as for generator output); the current application's fixed three-wave
composition does sum both components. -/
theorem composeWaves_real_sum_imag_zero :
    (∀ (w0 : List Cplx) (rest : List (List Cplx)),
        (∀ w ∈ w0 :: rest, w.length = w0.length) →
        ∃ out, composeWaves (w0 :: rest) = some out ∧ out.length = w0.length ∧
          ∀ n < w0.length,
            out[n]? = some ⟨((w0 :: rest).map fun w => (w.getD n cZero).r).sum, 0⟩) ∧
    (∀ w1 w2 w3 : List Cplx, w2.length = w1.length → w3.length = w1.length →
        ∃ out, compositeWave3 w1 w2 w3 = some out ∧ out.length = w1.length ∧
          ∀ n < w1.length,
            out[n]? = some ⟨(w1.getD n cZero).r + (w2.getD n cZero).r + (w3.getD n cZero).r,
                            (w1.getD n cZero).i + (w2.getD n cZero).i + (w3.getD n cZero).i⟩) := by
  constructor
  · intro w0 rest hlen
    have hg : ((w0 :: rest).all fun w => w0.length ≤ w.length) = true := by
      simp only [List.all_eq_true, decide_eq_true_eq]
      exact fun w hw => (hlen w hw).ge
    rw [composeWaves, if_pos hg]
    refine ⟨_, rfl, by simp, ?_⟩
    intro n hn
    simp only [List.getElem?_map, List.getElem?_range hn, Option.map_some']
    rw [foldl_real_sum]
    simp [cZero]
  · intro w1 w2 w3 h2 h3
    rw [compositeWave3, if_pos ⟨h2.ge, h3.ge⟩]
    refine ⟨_, rfl, by simp, ?_⟩
    intro n hn
    simp only [List.getElem?_map, List.getElem?_range hn, Option.map_some']

/-- Witness for the amended C6: a concrete one-signal composition and the
three-wave composition of empty signals. -/
theorem composeWaves_real_sum_imag_zero_witness :
    (∃ out, composeWaves [[⟨1, 2⟩]] = some out ∧ out.length = 1 ∧
        ∀ n < 1, out[n]? = some ⟨(([[(⟨1, 2⟩ : Cplx)]]).map fun w => (w.getD n cZero).r).sum, 0⟩) ∧
    (∃ out, compositeWave3 [] [] [] = some out ∧ out.length = 0 ∧
        ∀ n < 0, out[n]? = some ⟨(([] : List Cplx).getD n cZero).r + (([] : List Cplx).getD n cZero).r
            + (([] : List Cplx).getD n cZero).r,
          (([] : List Cplx).getD n cZero).i + (([] : List Cplx).getD n cZero).i
            + (([] : List Cplx).getD n cZero).i⟩) :=
  ⟨composeWaves_real_sum_imag_zero.1 [⟨1, 2⟩] [] (by simp),
   composeWaves_real_sum_imag_zero.2 [] [] [] rfl rfl⟩

/-- C7 counterexample: composing two signals of different lengths where the
first is the shorter raises no error at all — the composition silently
succeeds, truncated to the first signal's length. -/
theorem composeWaves_mismatch_silent :
    composeWaves [[⟨1, 0⟩], [⟨2, 0⟩, ⟨3, 0⟩]] = some [⟨3, 0⟩] ∧
      ([(⟨1, 0⟩ : Cplx)]).length ≠ ([⟨2, 0⟩, ⟨3, 0⟩] : List Cplx).length := by
  refine ⟨?_, by simp⟩
  rw [composeWaves, if_pos (by simp)]
  simp [List.range_succ, cZero]
  norm_num

/-- C7 amended: there is no typed `MismatchedLength` error.  When a later
signal is shorter than the first, the combination fails with an untyped
out-of-bounds access (modelled `none`); when every later signal is at least as
long as the first, it silently succeeds with the first signal's length. -/
theorem composeWaves_mismatched_behavior :
    (∀ w1 w2 : List Cplx, w2.length < w1.length → composeWaves [w1, w2] = none) ∧
    (∀ w1 w2 : List Cplx, w1.length ≤ w2.length →
        ∃ out, composeWaves [w1, w2] = some out ∧ out.length = w1.length) := by
  constructor
  · intro w1 w2 h
    rw [composeWaves, if_neg]
    simp only [List.all_eq_true, decide_eq_true_eq]
    intro hall
    have := hall w2 (by simp)
    omega
  · intro w1 w2 h
    rw [composeWaves, if_pos (by simp [h])]
    exact ⟨_, rfl, by simp⟩

/-- Witness for the amended C7: a shorter second signal fails, a longer second
signal silently succeeds. -/
theorem composeWaves_mismatched_behavior_witness :
    composeWaves [[cZero], []] = none ∧
      ∃ out, composeWaves [[cZero], [cZero, cZero]] = some out ∧ out.length = 1 :=
  ⟨composeWaves_mismatched_behavior.1 [cZero] [] (by simp),
   composeWaves_mismatched_behavior.2 [cZero] [cZero, cZero] (by simp)⟩

/-- Elementwise sum of two equal-length signals (`a + b` of the spec). -/
def addSignal (a b : List Cplx) : List Cplx := List.zipWith cadd a b

/-- Kleisli-style lift of a binary signal operation to failing computations:
both operands must have succeeded for the combination to exist. -/
def liftOpt2 (f : List Cplx → List Cplx → List Cplx) :
    Option (List Cplx) → Option (List Cplx) → Option (List Cplx)
  | some x, some y => some (f x y)
  | _, _ => none

theorem liftOpt2_none_left (f : List Cplx → List Cplx → List Cplx)
    (y : Option (List Cplx)) : liftOpt2 f none y = none := by
  cases y <;> rfl

theorem liftOpt2_none_right (f : List Cplx → List Cplx → List Cplx)
    (x : Option (List Cplx)) : liftOpt2 f x none = none := by
  cases x <;> rfl

theorem evenIdx_addSignal : ∀ a b : List Cplx,
    evenIdx (addSignal a b) = addSignal (evenIdx a) (evenIdx b)
  | [], b => by simp [addSignal, evenIdx]
  | a :: ta, [] => by simp [addSignal, evenIdx]
  | [a], b1 :: bt => by cases bt <;> simp [addSignal, evenIdx]
  | a1 :: a2 :: ta, [b] => by simp [addSignal, evenIdx]
  | a1 :: a2 :: ta, b1 :: b2 :: bt => by
    simp only [addSignal, List.zipWith_cons_cons, evenIdx]
    have := evenIdx_addSignal ta bt
    simp only [addSignal] at this
    rw [this]

theorem oddIdx_addSignal : ∀ a b : List Cplx,
    oddIdx (addSignal a b) = addSignal (oddIdx a) (oddIdx b)
  | [], b => by simp [addSignal, oddIdx]
  | a :: ta, [] => by simp [addSignal, oddIdx]
  | [a], b1 :: bt => by cases bt <;> simp [addSignal, oddIdx]
  | a1 :: a2 :: ta, [b] => by simp [addSignal, oddIdx]
  | a1 :: a2 :: ta, b1 :: b2 :: bt => by
    simp only [addSignal, List.zipWith_cons_cons, oddIdx]
    have := oddIdx_addSignal ta bt
    simp only [addSignal] at this
    rw [this]

theorem getD_addSignal : ∀ (a b : List Cplx) (k : ℕ), k < a.length → k < b.length →
    (addSignal a b).getD k cZero = cadd (a.getD k cZero) (b.getD k cZero)
  | x :: ta, y :: tb, 0, _, _ => by simp [addSignal]
  | x :: ta, y :: tb, k + 1, h1, h2 => by
    simp only [addSignal, List.zipWith_cons_cons, List.getD_cons_succ]
    exact getD_addSignal ta tb k (by simpa using h1) (by simpa using h2)
  | [], _, k, h1, _ => by simp at h1
  | _ :: _, [], k, _, h2 => by simp at h2

theorem addSignal_append (a b c d : List Cplx) (h : a.length = c.length) :
    addSignal (a ++ b) (c ++ d) = addSignal a c ++ addSignal b d := by
  induction a generalizing c with
  | nil =>
    cases c with
    | nil => simp [addSignal]
    | cons y tc => simp at h
  | cons x ta ih =>
    cases c with
    | nil => simp at h
    | cons y tc =>
      have h' : ta.length = tc.length := by simpa using h
      simp only [addSignal, List.cons_append, List.zipWith_cons_cons]
      have hih := ih tc h'
      simp only [addSignal] at hih
      rw [hih]

theorem addSignal_map_range (n : ℕ) (f g : ℕ → Cplx) :
    addSignal ((List.range n).map f) ((List.range n).map g)
      = (List.range n).map fun k => cadd (f k) (g k) := by
  rw [addSignal]
  induction n with
  | zero => rfl
  | succ m ih => simp [List.range_succ, List.zipWith_append, ih]

theorem length_addSignal (a b : List Cplx) :
    (addSignal a b).length = min a.length b.length := by
  simp [addSignal]

theorem cadd_butterfly_distrib (e1 e2 o1 o2 w : Cplx) :
    cadd (cadd e1 e2) (cmul w (cadd o1 o2))
      = cadd (cadd e1 (cmul w o1)) (cadd e2 (cmul w o2)) := by
  ext
  · simp [cadd, cmul]; ring
  · simp [cadd, cmul]; ring

theorem csub_butterfly_distrib (e1 e2 o1 o2 w : Cplx) :
    csub (cadd e1 e2) (cmul w (cadd o1 o2))
      = cadd (csub e1 (cmul w o1)) (csub e2 (cmul w o2)) := by
  ext
  · simp [cadd, csub, cmul]; ring
  · simp [cadd, csub, cmul]; ring

theorem fft_unfold (l : List Cplx) (h : ¬ l.length ≤ 1) :
    fft l = (fft (evenIdx l)).bind fun ev =>
      (fft (oddIdx l)).bind fun od =>
        if l.length / 2 ≤ ev.length ∧ l.length / 2 ≤ od.length then
          some (((List.range (l.length / 2)).map fun k =>
                  cadd (ev.getD k cZero) (cmul (twiddle l.length k) (od.getD k cZero)))
                ++ ((List.range (l.length / 2)).map fun k =>
                  csub (ev.getD k cZero) (cmul (twiddle l.length k) (od.getD k cZero))))
        else none := by
  rw [fft, dif_neg h]

theorem fft_addSignal_aux :
    ∀ (n : ℕ) (a b : List Cplx), a.length = n → b.length = n →
      fft (addSignal a b) = liftOpt2 addSignal (fft a) (fft b) := by
  intro n
  induction n using Nat.strong_induction_on with
  | _ n ih =>
    intro a b ha hb
    have hab : (addSignal a b).length = n := by rw [length_addSignal, ha, hb, min_self]
    by_cases h1 : n ≤ 1
    · rw [fft_short a (by omega), fft_short b (by omega), fft_short _ (by omega)]
      rfl
    · have hea : (evenIdx a).length = (n + 1) / 2 := by rw [length_evenIdx, ha]
      have heb : (evenIdx b).length = (n + 1) / 2 := by rw [length_evenIdx, hb]
      have hoa : (oddIdx a).length = n / 2 := by rw [length_oddIdx, ha]
      have hob : (oddIdx b).length = n / 2 := by rw [length_oddIdx, hb]
      have ihe := ih ((n + 1) / 2) (by omega) (evenIdx a) (evenIdx b) hea heb
      have iho := ih (n / 2) (by omega) (oddIdx a) (oddIdx b) hoa hob
      rw [fft_unfold (addSignal a b) (by omega), fft_unfold a (by omega),
        fft_unfold b (by omega)]
      rw [evenIdx_addSignal, oddIdx_addSignal, ihe, iho, hab, ha, hb]
      cases hfea : fft (evenIdx a) with
      | none => simp [liftOpt2_none_left]
      | some ea =>
        cases hfeb : fft (evenIdx b) with
        | none => simp [liftOpt2, liftOpt2_none_right]
        | some eb =>
          cases hfoa : fft (oddIdx a) with
          | none => simp [liftOpt2, liftOpt2_none_left, liftOpt2_none_right]
          | some oa =>
            cases hfob : fft (oddIdx b) with
            | none => simp [liftOpt2, liftOpt2_none_left, liftOpt2_none_right]
            | some ob =>
              have hlen_e : ea.length = eb.length := by
                have h1e := fft_map_length ((n + 1) / 2) (evenIdx a) (le_of_eq hea)
                have h2e := fft_map_length ((n + 1) / 2) (evenIdx b) (le_of_eq heb)
                rw [hfea, hea] at h1e
                rw [hfeb, heb] at h2e
                rw [← h2e] at h1e
                simpa using h1e
              have hlen_o : oa.length = ob.length := by
                have h1o := fft_map_length (n / 2) (oddIdx a) (le_of_eq hoa)
                have h2o := fft_map_length (n / 2) (oddIdx b) (le_of_eq hob)
                rw [hfoa, hoa] at h1o
                rw [hfob, hob] at h2o
                rw [← h2o] at h1o
                simpa using h1o
              simp only [liftOpt2, Option.some_bind]
              by_cases hg : n / 2 ≤ ea.length ∧ n / 2 ≤ oa.length
              · have hgb : n / 2 ≤ eb.length ∧ n / 2 ≤ ob.length := by
                  rw [← hlen_e, ← hlen_o]; exact hg
                have hgS : n / 2 ≤ (addSignal ea eb).length
                    ∧ n / 2 ≤ (addSignal oa ob).length := by
                  rw [length_addSignal, ← hlen_e, min_self,
                    length_addSignal, ← hlen_o, min_self]
                  exact hg
                rw [if_pos hgS, if_pos hg, if_pos hgb]
                refine congrArg some ?_
                rw [addSignal_append _ _ _ _ (by simp)]
                rw [addSignal_map_range, addSignal_map_range]
                refine congrArg₂ (· ++ ·) ?_ ?_
                · refine List.map_congr_left ?_
                  intro k hk
                  rw [List.mem_range] at hk
                  rw [getD_addSignal ea eb k (by omega) (by omega),
                    getD_addSignal oa ob k (by omega) (by omega)]
                  exact cadd_butterfly_distrib _ _ _ _ _
                · refine List.map_congr_left ?_
                  intro k hk
                  rw [List.mem_range] at hk
                  rw [getD_addSignal ea eb k (by omega) (by omega),
                    getD_addSignal oa ob k (by omega) (by omega)]
                  exact csub_butterfly_distrib _ _ _ _ _
              · have hgb : ¬ (n / 2 ≤ eb.length ∧ n / 2 ≤ ob.length) := by
                  rw [← hlen_e, ← hlen_o]; exact hg
                have hgS : ¬ (n / 2 ≤ (addSignal ea eb).length
                    ∧ n / 2 ≤ (addSignal oa ob).length) := by
                  rw [length_addSignal, ← hlen_e, min_self,
                    length_addSignal, ← hlen_o, min_self]
                  exact hg
                rw [if_neg hgS, if_neg hg]

/-- C3: for every pair of equal-length signals, the fft of the elementwise sum
equals the elementwise sum of the ffts (exact equality over the reals; the
spec's 1e-9 relative tolerance covers floating-point rounding only).  Both
sides fail together on lengths where `fft` fails. -/
theorem fft_additive (a b : List Cplx) (h : a.length = b.length) :
    fft (addSignal a b) = liftOpt2 addSignal (fft a) (fft b) :=
  fft_addSignal_aux a.length a b rfl h.symm

/-- Witness for C3 at the one-sample signals `[(1, 1)]` and `[(2, 3)]`. -/
theorem fft_additive_witness :
    ([⟨1, 1⟩] : List Cplx).length = ([⟨2, 3⟩] : List Cplx).length ∧
      fft (addSignal [⟨1, 1⟩] [⟨2, 3⟩]) = liftOpt2 addSignal (fft [⟨1, 1⟩]) (fft [⟨2, 3⟩]) :=
  ⟨rfl, fft_additive [⟨1, 1⟩] [⟨2, 3⟩] rfl⟩

theorem getElem?_eq_some_getD (l : List Cplx) (k : ℕ) (h : k < l.length) :
    l[k]? = some (l.getD k cZero) := by
  rw [List.getD_eq_getElem?_getD, List.getElem?_eq_getElem h]
  rfl

theorem range_map_append_low (h : ℕ) (F G : ℕ → Cplx) (j : ℕ) (hj : j < h) :
    (((List.range h).map F) ++ ((List.range h).map G))[j]? = some (F j) := by
  rw [List.getElem?_append_left (by simpa using hj)]
  rw [List.getElem?_map, List.getElem?_range hj]
  rfl

theorem range_map_append_high (h : ℕ) (F G : ℕ → Cplx) (j : ℕ) (h1 : h ≤ j)
    (h2 : j < h + h) :
    (((List.range h).map F) ++ ((List.range h).map G))[j]? = some (G (j - h)) := by
  rw [List.getElem?_append_right (by simpa using h1)]
  simp only [List.length_map, List.length_range]
  rw [List.getElem?_map, List.getElem?_range (by omega)]
  rfl

theorem cmul_zero_right (x : Cplx) : cmul x cZero = cZero := by
  ext
  · simp [cmul, cZero]
  · simp [cmul, cZero]

theorem twiddle_flip (M k : ℕ) (hM : 0 < M) (hk : k ≤ M) :
    twiddle (2 * M) (M - k) = cneg (Cplx.conj (twiddle (2 * M) k)) := by
  have hM' : (M : ℝ) ≠ 0 := Nat.cast_ne_zero.mpr (by omega)
  have ha : -2 * Real.pi * ((M - k : ℕ) : ℝ) / ((2 * M : ℕ) : ℝ)
      = -(Real.pi + -2 * Real.pi * (k : ℝ) / ((2 * M : ℕ) : ℝ)) := by
    rw [Nat.cast_sub hk]
    push_cast
    field_simp
    ring
  simp only [twiddle, cneg, Cplx.conj]
  rw [ha]
  ext
  · simp only [Real.cos_neg, Real.cos_add, Real.cos_pi, Real.sin_pi]
    ring
  · simp only [Real.sin_neg, Real.sin_add, Real.cos_pi, Real.sin_pi]
    ring

theorem fft_conjSym_all :
    ∀ (m : ℕ) (l : List Cplx), l.length = 2 ^ m → (∀ x ∈ l, x.i = 0) →
      ∀ res, fft l = some res → ∀ k, k < 2 ^ m →
        res[(2 ^ m - k) % 2 ^ m]? = (res[k]?).map Cplx.conj := by
  intro m
  induction m with
  | zero =>
    intro l hl hreal res hres k hk
    have hk0 : k = 0 := by omega
    subst hk0
    obtain ⟨x, rfl⟩ := List.length_eq_one.mp hl
    rw [fft_short [x] (by simp)] at hres
    have hx : res = [x] := (Option.some_inj.mp hres).symm
    subst hx
    norm_num
    exact (conj_eq_self x (hreal x (by simp))).symm
  | succ m ih =>
    intro l hl hreal res hres k hk
    have hM : 1 ≤ 2 ^ m := Nat.one_le_two_pow
    have hN2 : 2 ^ (m + 1) = 2 * 2 ^ m := by rw [pow_succ]; ring
    have hevl : (evenIdx l).length = 2 ^ m := by rw [length_evenIdx, hl]; omega
    have hodl : (oddIdx l).length = 2 ^ m := by rw [length_oddIdx, hl]; omega
    obtain ⟨ev, hev, hevlen⟩ := fft_pow2_succeeds (evenIdx l) m hevl
    obtain ⟨od, hod, hodlen⟩ := fft_pow2_succeeds (oddIdx l) m hodl
    rw [hevl] at hevlen
    rw [hodl] at hodlen
    have ihe := ih (evenIdx l) hevl (fun x hx => hreal x (mem_of_mem_evenIdx l x hx)) ev hev
    have iho := ih (oddIdx l) hodl (fun x hx => hreal x (mem_of_mem_oddIdx l x hx)) od hod
    rw [fft_unfold l (by omega), hev, hod] at hres
    simp only [Option.some_bind] at hres
    rw [hl] at hres
    have hhalf : 2 ^ (m + 1) / 2 = 2 ^ m := by omega
    rw [hhalf, if_pos ⟨hevlen.ge, hodlen.ge⟩] at hres
    have hsplit : res = ((List.range (2 ^ m)).map fun j =>
          cadd (ev.getD j cZero) (cmul (twiddle (2 ^ (m + 1)) j) (od.getD j cZero)))
        ++ ((List.range (2 ^ m)).map fun j =>
          csub (ev.getD j cZero) (cmul (twiddle (2 ^ (m + 1)) j) (od.getD j cZero))) :=
      (Option.some_inj.mp hres).symm
    subst hsplit
    have iheD : ∀ j, 1 ≤ j → j < 2 ^ m →
        ev.getD (2 ^ m - j) cZero = (ev.getD j cZero).conj := by
      intro j h1 h2
      have h := ihe j h2
      rw [Nat.mod_eq_of_lt (by omega)] at h
      rw [getElem?_eq_some_getD ev (2 ^ m - j) (by omega),
        getElem?_eq_some_getD ev j (by omega)] at h
      simpa using h
    have ihoD : ∀ j, 1 ≤ j → j < 2 ^ m →
        od.getD (2 ^ m - j) cZero = (od.getD j cZero).conj := by
      intro j h1 h2
      have h := iho j h2
      rw [Nat.mod_eq_of_lt (by omega)] at h
      rw [getElem?_eq_some_getD od (2 ^ m - j) (by omega),
        getElem?_eq_some_getD od j (by omega)] at h
      simpa using h
    have ihe0 : (ev.getD 0 cZero).i = 0 := by
      have h := ihe 0 (by omega)
      rw [Nat.sub_zero, Nat.mod_self, getElem?_eq_some_getD ev 0 (by omega)] at h
      have h2 := Option.some_inj.mp h
      have h3 := congrArg Cplx.i h2
      simp only [Cplx.conj] at h3
      linarith
    have iho0 : (od.getD 0 cZero).i = 0 := by
      have h := iho 0 (by omega)
      rw [Nat.sub_zero, Nat.mod_self, getElem?_eq_some_getD od 0 (by omega)] at h
      have h2 := Option.some_inj.mp h
      have h3 := congrArg Cplx.i h2
      simp only [Cplx.conj] at h3
      linarith
    by_cases hk0 : k = 0
    · subst hk0
      rw [Nat.sub_zero, Nat.mod_self]
      rw [range_map_append_low (2 ^ m) _ _ 0 (by omega)]
      refine congrArg some ?_
      rw [twiddle_zero, cmul_one_left]
      refine (conj_eq_self _ ?_).symm
      have hcadd : (cadd (ev.getD 0 cZero) (od.getD 0 cZero)).i
          = (ev.getD 0 cZero).i + (od.getD 0 cZero).i := rfl
      rw [hcadd, ihe0, iho0]
      norm_num
    · by_cases hkM : k < 2 ^ m
      · have h1k : 1 ≤ k := by omega
        rw [Nat.mod_eq_of_lt (by omega)]
        rw [range_map_append_high (2 ^ m) _ _ (2 ^ (m + 1) - k) (by omega) (by omega)]
        rw [range_map_append_low (2 ^ m) _ _ k hkM]
        have hidx : 2 ^ (m + 1) - k - 2 ^ m = 2 ^ m - k := by omega
        rw [hidx]
        refine congrArg some ?_
        rw [iheD k h1k hkM, ihoD k h1k hkM, hN2,
          twiddle_flip (2 ^ m) k (by omega) (by omega),
          csub_cmul_cneg, ← conj_cmul, ← conj_cadd]
      · by_cases hkMeq : k = 2 ^ m
        · subst hkMeq
          have hsub : 2 ^ (m + 1) - 2 ^ m = 2 ^ m := by omega
          rw [hsub, Nat.mod_eq_of_lt (by omega)]
          rw [range_map_append_high (2 ^ m) _ _ (2 ^ m) (le_refl _) (by omega)]
          rw [Nat.sub_self]
          refine congrArg some ?_
          rw [twiddle_zero, cmul_one_left]
          refine (conj_eq_self _ ?_).symm
          have hcsub : (csub (ev.getD 0 cZero) (od.getD 0 cZero)).i
              = (ev.getD 0 cZero).i - (od.getD 0 cZero).i := rfl
          rw [hcsub, ihe0, iho0]
          norm_num
        · have hkgt : 2 ^ m < k := by omega
          have h1q : 1 ≤ k - 2 ^ m := by omega
          have hq : k - 2 ^ m < 2 ^ m := by omega
          rw [Nat.mod_eq_of_lt (by omega)]
          rw [range_map_append_low (2 ^ m) _ _ (2 ^ (m + 1) - k) (by omega)]
          rw [range_map_append_high (2 ^ m) _ _ k (by omega) (by omega)]
          simp only [Option.map_some']
          refine congrArg some ?_
          have hidx2 : 2 ^ (m + 1) - k = 2 ^ m - (k - 2 ^ m) := by omega
          rw [hidx2]
          rw [iheD (k - 2 ^ m) h1q hq, ihoD (k - 2 ^ m) h1q hq, hN2,
            twiddle_flip (2 ^ m) (k - 2 ^ m) (by omega) (by omega),
            cadd_cmul_cneg, ← conj_cmul, ← conj_csub]

/-- C2: for a real-valued input of power-of-two length `N`, the fft output has
conjugate symmetry: for each `k` in `[1, N/2)`, coefficient `N - k` is the
complex conjugate of coefficient `k`. -/
theorem fft_conjugate_symmetry (l : List Cplx) (m : ℕ) (hl : l.length = 2 ^ m)
    (hreal : ∀ x ∈ l, x.i = 0) (res : List Cplx) (hres : fft l = some res)
    (k : ℕ) (hk1 : 1 ≤ k) (hk2 : k < l.length / 2) :
    res[l.length - k]? = (res[k]?).map Cplx.conj := by
  have hM : 1 ≤ 2 ^ m := Nat.one_le_two_pow
  have hk : k < 2 ^ m := by omega
  have h := fft_conjSym_all m l hl hreal res hres k hk
  rw [Nat.mod_eq_of_lt (by omega)] at h
  rw [hl]
  exact h

/-- Witness for C2: the length-4 impulse signal, whose fft is the all-ones
vector; at `k = 1` the symmetric coefficient `4 - 1 = 3` is its conjugate. -/
theorem fft_conjugate_symmetry_witness :
    (([⟨1, 0⟩, ⟨0, 0⟩, ⟨0, 0⟩, ⟨0, 0⟩] : List Cplx).length = 2 ^ 2) ∧
      (∀ x ∈ ([⟨1, 0⟩, ⟨0, 0⟩, ⟨0, 0⟩, ⟨0, 0⟩] : List Cplx), x.i = 0) ∧
      fft [⟨1, 0⟩, ⟨0, 0⟩, ⟨0, 0⟩, ⟨0, 0⟩] = some [⟨1, 0⟩, ⟨1, 0⟩, ⟨1, 0⟩, ⟨1, 0⟩] ∧
      (1 : ℕ) ≤ 1 ∧
      1 < ([⟨1, 0⟩, ⟨0, 0⟩, ⟨0, 0⟩, ⟨0, 0⟩] : List Cplx).length / 2 ∧
      ([⟨1, 0⟩, ⟨1, 0⟩, ⟨1, 0⟩, ⟨1, 0⟩] :
          List Cplx)[([⟨1, 0⟩, ⟨0, 0⟩, ⟨0, 0⟩, ⟨0, 0⟩] : List Cplx).length - 1]?
        = (([⟨1, 0⟩, ⟨1, 0⟩, ⟨1, 0⟩, ⟨1, 0⟩] : List Cplx)[1]?).map Cplx.conj := by
  have hreal : ∀ x ∈ ([⟨1, 0⟩, ⟨0, 0⟩, ⟨0, 0⟩, ⟨0, 0⟩] : List Cplx), x.i = 0 := by
    intro x hx
    simp only [List.mem_cons, List.not_mem_nil, or_false] at hx
    rcases hx with rfl | rfl | rfl | rfl <;> rfl
  have h4 : fft [⟨1, 0⟩, ⟨0, 0⟩, ⟨0, 0⟩, ⟨0, 0⟩] = some [⟨1, 0⟩, ⟨1, 0⟩, ⟨1, 0⟩, ⟨1, 0⟩] := by
    rw [fft_unfold _ (by norm_num)]
    have he : evenIdx [⟨1, 0⟩, ⟨0, 0⟩, ⟨0, 0⟩, ⟨0, 0⟩] = [⟨1, 0⟩, ⟨0, 0⟩] := rfl
    have ho : oddIdx [⟨1, 0⟩, ⟨0, 0⟩, ⟨0, 0⟩, ⟨0, 0⟩] = [⟨0, 0⟩, ⟨0, 0⟩] := rfl
    rw [he, ho, fft_two, fft_two]
    simp only [Option.some_bind]
    rw [if_pos (by simp [cadd, csub])]
    simp [List.range_succ, cadd, csub, cmul, cZero]
  exact ⟨by norm_num, hreal, h4, le_refl 1, by norm_num,
    fft_conjugate_symmetry [⟨1, 0⟩, ⟨0, 0⟩, ⟨0, 0⟩, ⟨0, 0⟩] 2 (by norm_num) hreal
      [⟨1, 0⟩, ⟨1, 0⟩, ⟨1, 0⟩, ⟨1, 0⟩] h4 1 (le_refl 1) (by norm_num)⟩
